import Mathlib

/-!
Shallow embedding of the `imgdiff` perceptual difference engine
(`diff.go`, `perceptual.go`).  Go `float64` arithmetic is modelled over `ℝ`
(the design document only fixes the formulas, not floating-point rounding),
Go slices over `List`, and the single error value `ErrSize` as the only
constructor of an error type.  Out-of-range slice reads, which would panic
in Go, read a default value of `0`; the claim about index bounds of the
reflective extension shows every read reached by the convolution with both
dimensions at least 2 is in range, so the total model agrees with the Go
code there.
-/

set_option maxHeartbeats 1000000

/-- A color as returned by Go's `Color.RGBA()`: four alpha-premultiplied
channels in `0 .. 0xffff`. -/
structure RGBA16 where
  r : ℕ
  g : ℕ
  b : ℕ
  a : ℕ

/-- An in-memory raster image: `image.Image` with bounds `w × h` anchored at
the origin and a pixel accessor (already composed with `Color.RGBA()`). -/
structure Image where
  w : ℕ
  h : ℕ
  At : ℕ → ℕ → RGBA16

/-- A pixel of the output `image.NRGBA` difference mask. -/
structure NRGBA where
  r : ℕ
  g : ℕ
  b : ℕ
  a : ℕ
  deriving DecidableEq

/-- The output difference image (`image.NRGBA` of size `w × h`). -/
structure NRGBAImage where
  w : ℕ
  h : ℕ
  At : ℕ → ℕ → NRGBA

/-- The only error of the core: `ErrSize` from `diff.go`. -/
inductive DiffError where
  | ErrSize
  deriving DecidableEq

/-- `epsilon` of the LAB colorspace (`perceptual.go`). -/
noncomputable def epsilon : ℝ := 216.0 / 24389.0

/-- `kappa` of the LAB colorspace (`perceptual.go`). -/
noncomputable def kappa : ℝ := 24389.0 / 27.0

/-- `xyz` converts a device color and gamma exponent to CIE XYZ. -/
noncomputable def xyz (c : RGBA16) (gamma : ℝ) : ℝ × ℝ × ℝ :=
  let rg := Real.rpow ((c.r : ℝ) / 0xffff) gamma
  let gg := Real.rpow ((c.g : ℝ) / 0xffff) gamma
  let bg := Real.rpow ((c.b : ℝ) / 0xffff) gamma
  let x := rg * 0.576700 + gg * 0.185556 + bg * 0.188212
  let y := rg * 0.297361 + gg * 0.627355 + bg * 0.0752847
  let z := rg * 0.0270328 + gg * 0.0706879 + bg * 0.991248
  (x, y, z)

/-- The process-wide reference white point, `init()` of `perceptual.go`:
`xyz(color.RGBA{0xff,0xff,0xff,0xff}, 1)` (whose channels widen to
`0xffff` through `RGBA()`). -/
noncomputable def whites : ℝ × ℝ × ℝ := xyz ⟨0xffff, 0xffff, 0xffff, 0xffff⟩ 1

noncomputable def whiteX : ℝ := whites.1
noncomputable def whiteY : ℝ := whites.2.1
noncomputable def whiteZ : ℝ := whites.2.2

/-- CIE LAB triple (`labColor` in `perceptual.go`). -/
structure labColor where
  l : ℝ
  a : ℝ
  b : ℝ

/-- `lab` converts an XYZ triple to CIE LAB. -/
noncomputable def lab (x y z : ℝ) : labColor :=
  let r0 := x / whiteX
  let r1 := y / whiteY
  let r2 := z / whiteZ
  let f0 := if r0 > epsilon then Real.rpow r0 (1.0 / 3.0) else (kappa * r0 + 16.0) / 116.0
  let f1 := if r1 > epsilon then Real.rpow r1 (1.0 / 3.0) else (kappa * r1 + 16.0) / 116.0
  let f2 := if r2 > epsilon then Real.rpow r2 (1.0 / 3.0) else (kappa * r2 + 16.0) / 116.0
  ⟨116.0 * f1 - 16.0, 500.0 * (f0 - f1), 200.0 * (f1 - f2)⟩

/-- `csf` computes the contrast sensitivity function (Barten SPIE 1989). -/
noncomputable def csf (cpd lum : ℝ) : ℝ :=
  let a := 440.0 * Real.rpow (1.0 + 0.7 / lum) (-0.2)
  let b := 0.3 * Real.rpow (1.0 + 100.0 / lum) 0.15
  a * cpd * Real.exp (-b * cpd) * Real.sqrt (1.0 + 0.06 * Real.exp (b * cpd))

/-- `vmask` is Visual Masking from Daly 1993. -/
noncomputable def vmask (c : ℝ) : ℝ :=
  let a := Real.rpow (392.498 * c) 0.7
  let b := Real.rpow (0.0153 * a) 4.0
  Real.rpow (1.0 + b) 0.25

/-- `tvi`, Threshold vs Intensity (Ward Larson Siggraph 1997). -/
noncomputable def tvi (al : ℝ) : ℝ :=
  let x := Real.logb 10 al
  let r : ℝ :=
    if x < -3.94 then -2.86
    else if x < -1.44 then Real.rpow (0.405 * x + 1.6) 2.18 - 2.86
    else if x < -0.0184 then x - 0.395
    else if x < 1.9 then Real.rpow (0.249 * x + 0.65) 2.7 - 0.72
    else x - 1.255
  Real.rpow 10.0 r

/-- `lapLevels`: number of pyramid levels. -/
def lapLevels : ℕ := 8

/-- `lapKernel`: the 5-tap filter kernel, indexed `0 .. 4` (the Go loop
offset `i ∈ [-2,2]` reads `lapKernel[i+2]`). -/
noncomputable def lapKernel : ℕ → ℝ := fun i => [0.05, 0.25, 0.4, 0.25, 0.05].getD i 0

/-- Read entry `(y, x)` of a 2-D slice, `0` out of range (a Go panic). -/
noncomputable def g2 (g : List (List ℝ)) (y x : ℕ) : ℝ := (g.getD y []).getD x 0

/-- Read a 2-D slice at possibly negative indices, `0` out of range. -/
noncomputable def g2i (g : List (List ℝ)) (y x : ℤ) : ℝ :=
  if 0 ≤ y ∧ 0 ≤ x then g2 g y.toNat x.toNat else 0

/-- Read entry `(l, y, x)` of a pyramid, `0` out of range. -/
noncomputable def g3 (p : List (List (List ℝ))) (l y x : ℕ) : ℝ := g2 (p.getD l []) y x

/-- The two-step reflective index adjustment of `pyramid`: a negative index
`i` maps to `-i`, then an index `≥ n` maps to `2n - i - 1`. -/
def reflect (n : ℕ) (i : ℤ) : ℤ :=
  let i1 := if i < 0 then -i else i
  if (n : ℤ) ≤ i1 then 2 * n - i1 - 1 else i1

/-- One convolution step of `pyramid`: each entry of the next level is the
separable 5×5 kernel applied to the previous level with reflective
boundary extension. -/
noncomputable def convolve (h w : ℕ) (prev : List (List ℝ)) : List (List ℝ) :=
  (List.range h).map fun (y : ℕ) =>
    (List.range w).map fun (x : ℕ) =>
      ∑ i ∈ Finset.range 5, ∑ j ∈ Finset.range 5,
        lapKernel i * lapKernel j *
          g2i prev (reflect h ((y : ℤ) + (j : ℤ) - 2)) (reflect w ((x : ℤ) + (i : ℤ) - 2))

/-- The level list of `pyramid`: `n` levels starting at `cur`, each further
level the convolution of the one before it. -/
noncomputable def pyrAux (h w : ℕ) : ℕ → List (List ℝ) → List (List (List ℝ))
  | 0, _ => []
  | n + 1, cur => cur :: pyrAux h w n (convolve h w cur)

/-- `pyramid` creates a Laplacian pyramid out of the luminance map `m`:
level 0 is a fresh copy of `m` (of `len(m)` rows of `len(m[0])` entries),
each next level convolves the previous one. -/
noncomputable def pyramid (m : List (List ℝ)) : List (List (List ℝ)) :=
  let h := m.length
  let w := (m.headD []).length
  pyrAux h w lapLevels ((List.range h).map fun y => (List.range w).map fun x => g2 m y x)

/-- The LAB buffer of an image: `aLAB` built by `labLap`. -/
noncomputable def labMap (m : Image) (gamma : ℝ) : List (List labColor) :=
  (List.range m.h).map fun y =>
    (List.range m.w).map fun x =>
      lab (xyz (m.At x y) gamma).1 (xyz (m.At x y) gamma).2.1 (xyz (m.At x y) gamma).2.2

/-- The luminance map of an image: `aLum` built by `labLap`
(the XYZ `Y` channel scaled by the luminance factor). -/
noncomputable def lumMap (m : Image) (gamma lum : ℝ) : List (List ℝ) :=
  (List.range m.h).map fun y =>
    (List.range m.w).map fun x => (xyz (m.At x y) gamma).2.1 * lum

/-- `labLap` computes an image's LAB buffer and luminance pyramid. -/
noncomputable def labLap (m : Image) (gamma lum : ℝ) :
    List (List labColor) × List (List (List ℝ)) :=
  (labMap m gamma, pyramid (lumMap m gamma lum))

/-- The engine configuration (`perceptual` struct). -/
structure perceptual where
  gamma : ℝ
  lum : ℝ
  nocolor : Bool
  fov : ℝ
  cf : ℝ
  odp : ℝ
  ai : ℕ

/-- `odp` as computed by `NewPerceptual`:
`2 * math.Tan(fov*0.5*math.Pi/180) * 180 / math.Pi`. -/
noncomputable def odpOf (fov : ℝ) : ℝ :=
  2 * Real.tan (fov * 0.5 * Real.pi / 180) * 180 / Real.pi

/-- The `NewPerceptual` adaptation-index loop
`for n := 1.0; !(n > odp); n *= 2 { ai++; if ai == lapLevels-1 { break } }`,
with the loop's remaining iteration budget made explicit (the `break`
bounds it by `lapLevels - 1`). -/
noncomputable def aiLoop (odp : ℝ) : ℕ → ℝ → ℕ → ℕ
  | 0, _, ai => ai
  | fuel + 1, n, ai =>
    if n > odp then ai
    else if ai + 1 = lapLevels - 1 then ai + 1
    else aiLoop odp fuel (n * 2) (ai + 1)

/-- The adaptation level index `ai` computed by `NewPerceptual`. -/
noncomputable def aiOf (odp : ℝ) : ℕ := aiLoop odp (lapLevels - 1) 1 0

/-- `NewPerceptual` creates a new perceptual engine configuration. -/
noncomputable def NewPerceptual (gamma lum fov cf : ℝ) (nocolor : Bool) : perceptual :=
  { gamma := gamma
    lum := lum
    nocolor := nocolor
    fov := fov
    cf := cf
    odp := odpOf fov
    ai := aiOf (odpOf fov) }

/-- The luminance pyramid `Compare` computes for one input image. -/
noncomputable def pyrOf (d : perceptual) (m : Image) : List (List (List ℝ)) :=
  (labLap m d.gamma d.lum).2

/-- `cpd`: cycles per degree per pyramid level,
`cpd[0] = 0.5 * w / odp` and `cpd[i] = 0.5 * cpd[i-1]`. -/
noncomputable def cpd (w : ℕ) (odp : ℝ) : ℕ → ℝ
  | 0 => 0.5 * (w : ℝ) / odp
  | i + 1 => 0.5 * cpd w odp i

/-- `csfMax := csf(3.248, 100.0)`. -/
noncomputable def csfMax : ℝ := csf 3.248 100.0

/-- `freq[i] = csfMax / csf(cpd[i], 100.0)`. -/
noncomputable def freq (w : ℕ) (odp : ℝ) (i : ℕ) : ℝ := csfMax / csf (cpd w odp i) 100.0

/-- The per-pixel shared adaptation luminance
`adapt = max(0.5*(aLap[ai][y][x]+bLap[ai][y][x]), 1e-5)`. -/
noncomputable def adaptAt (d : perceptual) (a b : Image) (y x : ℕ) : ℝ :=
  max (0.5 * (g3 (pyrOf d a) d.ai y x + g3 (pyrOf d b) d.ai y x)) 1e-5

/-- The clamped contrast denominator `max(max(d1, d2), 1e-5)` at level `i`. -/
noncomputable def denomAt (d : perceptual) (a b : Image) (y x i : ℕ) : ℝ :=
  max (max |g3 (pyrOf d a) (i + 2) y x| |g3 (pyrOf d b) (i + 2) y x|) 1e-5

/-- The per-pixel contrast `contrast[i] = max(n1, n2) / max(d, 1e-5)`. -/
noncomputable def contrastAt (d : perceptual) (a b : Image) (y x i : ℕ) : ℝ :=
  max |g3 (pyrOf d a) i y x - g3 (pyrOf d a) (i + 1) y x|
      |g3 (pyrOf d b) i y x - g3 (pyrOf d b) (i + 1) y x| /
    denomAt d a b y x i

/-- The per-pixel mask `mask[i] = vmask(contrast[i] * csf(cpd[i], adapt))`. -/
noncomputable def maskAt (d : perceptual) (a b : Image) (y x i : ℕ) : ℝ :=
  vmask (contrastAt d a b y x i * csf (cpd a.w d.odp i) (adaptAt d a b y x))

/-- The per-pixel raw contrast sum `contrastSum`. -/
noncomputable def cSumRaw (d : perceptual) (a b : Image) (y x : ℕ) : ℝ :=
  ∑ i ∈ Finset.range (lapLevels - 2), contrastAt d a b y x i

/-- `contrastSum` after the `if contrastSum < 1e-5` clamp. -/
noncomputable def cSum (d : perceptual) (a b : Image) (y x : ℕ) : ℝ :=
  if cSumRaw d a b y x < 1e-5 then 1e-5 else cSumRaw d a b y x

/-- The unclamped elevation factor
`factor = Σ contrast[i]*freq[i]*mask[i]/contrastSum`. -/
noncomputable def factorRaw (d : perceptual) (a b : Image) (y x : ℕ) : ℝ :=
  ∑ i ∈ Finset.range (lapLevels - 2),
    contrastAt d a b y x i * freq a.w d.odp i * maskAt d a b y x i / cSum d a b y x

/-- The elevation factor after the `[1, 10]` clamp. -/
noncomputable def factorAt (d : perceptual) (a b : Image) (y x : ℕ) : ℝ :=
  if factorRaw d a b y x < 1 then 1
  else if factorRaw d a b y x > 10 then 10
  else factorRaw d a b y x

/-- The per-pixel luminance delta `|aLap[0][y][x] - bLap[0][y][x]|`. -/
noncomputable def deltaAt (d : perceptual) (a b : Image) (y x : ℕ) : ℝ :=
  |g3 (pyrOf d a) 0 y x - g3 (pyrOf d b) 0 y x|

/-- The LAB buffer entry `aLAB[y][x]` of an image. -/
noncomputable def labAt (d : perceptual) (m : Image) (y x : ℕ) : labColor :=
  ((labMap m d.gamma).getD y []).getD x ⟨0, 0, 0⟩

/-- The per-pixel pass/fail decision of `Compare`: the luminance test,
then (unless `nocolor`) the modified CIE delta-E test with the color
factor forced to 0 in scotopic regions (`adapt < 10`). -/
noncomputable def pixelPass (d : perceptual) (a b : Image) (y x : ℕ) : Bool :=
  if deltaAt d a b y x > factorAt d a b y x * tvi (adaptAt d a b y x) then false
  else if d.nocolor then true
  else
    let cf := if adaptAt d a b y x < 10 then 0 else d.cf
    let da := (labAt d a y x).a - (labAt d b y x).a
    let db := (labAt d a y x).b - (labAt d b y x).b
    if (da * da + db * db) * cf > factorAt d a b y x then false else true

/-- The number of differing pixels counted by `Compare`. -/
noncomputable def npix (d : perceptual) (a b : Image) : ℕ :=
  ∑ y ∈ Finset.range a.h, ∑ x ∈ Finset.range a.w,
    if pixelPass d a b y x then 0 else 1

/-- One pixel of the output difference mask: opaque black for a pass,
opaque red (`c.R = 0xff`) for a failure, the `NRGBA` zero value outside
the image bounds. -/
noncomputable def diffAt (d : perceptual) (a b : Image) (x y : ℕ) : NRGBA :=
  if x < a.w ∧ y < a.h then
    if pixelPass d a b y x then ⟨0, 0, 0, 0xff⟩ else ⟨0xff, 0, 0, 0xff⟩
  else ⟨0, 0, 0, 0⟩

/-- `Compare` compares `a` and `b` using the pdiff algorithm: it fails with
`ErrSize` when the widths or heights differ, otherwise it returns the
difference mask and the count of differing pixels. -/
noncomputable def Compare (d : perceptual) (a b : Image) :
    Except DiffError (NRGBAImage × ℕ) :=
  if a.w ≠ b.w ∨ a.h ≠ b.h then Except.error DiffError.ErrSize
  else Except.ok (⟨a.w, a.h, fun x y => diffAt d a b x y⟩, npix d a b)

/-! ### Shared helper lemmas -/

lemma getD_map_range {α : Type} (n : ℕ) (f : ℕ → α) (d : α) (i : ℕ) :
    ((List.range n).map f).getD i d = if i < n then f i else d := by
  rcases lt_or_ge i n with h | h
  · rw [List.getD_eq_getElem?_getD, List.getElem?_map, List.getElem?_range h]
    simp [h]
  · rw [List.getD_eq_getElem?_getD, List.getElem?_eq_none (by simpa using h)]
    simp [Nat.not_lt.mpr h]

lemma tvi_pos (al : ℝ) : 0 < tvi al := by
  unfold tvi
  exact Real.rpow_pos_of_pos (by norm_num) _

lemma factorAt_bounds (d : perceptual) (a b : Image) (y x : ℕ) :
    1 ≤ factorAt d a b y x ∧ factorAt d a b y x ≤ 10 := by
  unfold factorAt
  split_ifs with h1 h2
  · exact ⟨le_refl 1, by norm_num⟩
  · exact ⟨by norm_num, le_refl 10⟩
  · exact ⟨not_lt.mp h1, not_lt.mp h2⟩

lemma adaptAt_ge (d : perceptual) (a b : Image) (y x : ℕ) :
    1e-5 ≤ adaptAt d a b y x := le_max_right _ _

lemma adaptAt_pos (d : perceptual) (a b : Image) (y x : ℕ) :
    0 < adaptAt d a b y x := lt_of_lt_of_le (by norm_num) (adaptAt_ge d a b y x)

lemma pyrAux_length (h w n : ℕ) (cur : List (List ℝ)) :
    (pyrAux h w n cur).length = n := by
  induction n generalizing cur with
  | zero => rfl
  | succ k ih => simp [pyrAux, ih]

lemma pyrAux_getD (h w : ℕ) :
    ∀ (n l : ℕ) (cur : List (List ℝ)), l < n →
      (pyrAux h w n cur).getD l [] = (convolve h w)^[l] cur := by
  intro n
  induction n with
  | zero => intro l cur hl; omega
  | succ k ih =>
    intro l cur hl
    cases l with
    | zero => rfl
    | succ l' =>
      have : (pyrAux h w (k + 1) cur).getD (l' + 1) [] =
          (pyrAux h w k (convolve h w cur)).getD l' [] := rfl
      rw [this, ih l' (convolve h w cur) (by omega), ← Function.iterate_succ_apply]

lemma convolve_length (h w : ℕ) (prev : List (List ℝ)) :
    (convolve h w prev).length = h := by
  simp [convolve]

lemma convolve_rows (h w : ℕ) (prev : List (List ℝ)) :
    ∀ row ∈ convolve h w prev, row.length = w := by
  intro row hrow
  simp only [convolve, List.mem_map, List.mem_range] at hrow
  obtain ⟨y, _, rfl⟩ := hrow
  simp

lemma g2_convolve (h w : ℕ) (prev : List (List ℝ)) (y x : ℕ) (hy : y < h) (hx : x < w) :
    g2 (convolve h w prev) y x =
      ∑ i ∈ Finset.range 5, ∑ j ∈ Finset.range 5,
        lapKernel i * lapKernel j *
          g2i prev (reflect h ((y : ℤ) + j - 2)) (reflect w ((x : ℤ) + i - 2)) := by
  unfold g2 convolve
  rw [getD_map_range, if_pos hy, getD_map_range, if_pos hx]

lemma iterate_convolve_shape (h w : ℕ) :
    ∀ (l : ℕ) (cur : List (List ℝ)), cur.length = h → (∀ r ∈ cur, r.length = w) →
      ((convolve h w)^[l] cur).length = h ∧ ∀ r ∈ (convolve h w)^[l] cur, r.length = w := by
  intro l
  induction l with
  | zero => intro cur h1 h2; exact ⟨h1, h2⟩
  | succ k ih =>
    intro cur _ _
    rw [Function.iterate_succ_apply]
    exact ih _ (convolve_length h w cur) (convolve_rows h w cur)

lemma pyramid_eq (m : List (List ℝ)) (w h : ℕ) (hh : m.length = h)
    (hhead : (m.headD []).length = w) :
    pyramid m = pyrAux h w lapLevels
      ((List.range h).map fun y => (List.range w).map fun x => g2 m y x) := by
  rw [show pyramid m = pyrAux m.length (m.headD []).length lapLevels
    ((List.range m.length).map fun y =>
      (List.range (m.headD []).length).map fun x => g2 m y x) from rfl, hh, hhead]

lemma copy_eq_self (m : List (List ℝ)) (w h : ℕ) (hh : m.length = h)
    (hw : ∀ r ∈ m, r.length = w) :
    ((List.range h).map fun y => (List.range w).map fun x => g2 m y x) = m := by
  apply List.ext_getElem
  · simp [hh]
  · intro y hy1 hy2
    have hy : y < h := by simpa using hy1
    have hrow : m[y].length = w := hw m[y] (List.getElem_mem hy2)
    simp only [List.getElem_map, List.getElem_range]
    apply List.ext_getElem
    · simpa using hrow.symm
    · intro x hx1 hx2
      have hx : x < w := by simpa using hx1
      simp only [List.getElem_map, List.getElem_range]
      unfold g2
      rw [List.getD_eq_getElem m [] hy2, List.getD_eq_getElem _ _ hx2]

/-- C3: for every input luminance map of size `w × h`, `pyramid` returns
exactly `lapLevels = 8` levels, each of dimensions exactly `w × h`; level 0
is an unmodified copy of the input, and each level `k + 1` equals, at every
entry, the separable 5×5 convolution of level `k` with the kernel that is
the outer product of `[0.05, 0.25, 0.4, 0.25, 0.05]` with itself, using the
reflective boundary extension `reflect` (an index `i < 0` maps to `-i`, an
index `i ≥ n` maps to `2n - i - 1`). -/
theorem C3_pyramid_shape (m : List (List ℝ)) (w h : ℕ) (hh : m.length = h)
    (hw : ∀ r ∈ m, r.length = w) (hhead : (m.headD []).length = w) :
    (pyramid m).length = lapLevels ∧
    (∀ l, l < lapLevels →
      ((pyramid m).getD l []).length = h ∧
        ∀ row ∈ (pyramid m).getD l [], row.length = w) ∧
    (pyramid m).getD 0 [] = m ∧
    (∀ l y x, l + 1 < lapLevels → y < h → x < w →
      g2 ((pyramid m).getD (l + 1) []) y x =
        ∑ i ∈ Finset.range 5, ∑ j ∈ Finset.range 5,
          lapKernel i * lapKernel j *
            g2i ((pyramid m).getD l [])
              (reflect h ((y : ℤ) + (j : ℤ) - 2)) (reflect w ((x : ℤ) + (i : ℤ) - 2))) := by
  have hpy := pyramid_eq m w h hh hhead
  have hcopy := copy_eq_self m w h hh hw
  refine ⟨by rw [hpy]; exact pyrAux_length h w lapLevels _, ?_, ?_, ?_⟩
  · intro l hl
    rw [hpy, pyrAux_getD h w lapLevels l _ hl, hcopy]
    exact iterate_convolve_shape h w l m hh hw
  · rw [hpy, pyrAux_getD h w lapLevels 0 _ (by norm_num [lapLevels]), hcopy]
    rfl
  · intro l y x hl hy hx
    rw [hpy, pyrAux_getD h w lapLevels (l + 1) _ hl,
      pyrAux_getD h w lapLevels l _ (by omega), Function.iterate_succ_apply']
    exact g2_convolve h w _ y x hy hx

theorem C3_pyramid_shape_witness :
    (pyramid [[(0 : ℝ), 0], [0, 0]]).length = lapLevels :=
  (C3_pyramid_shape [[(0 : ℝ), 0], [0, 0]] 2 2 rfl
    (by intro r hr; fin_cases hr <;> rfl) rfl).1

/-- C10: for both dimensions at least 2, the two-step reflective index
adjustment inside `pyramid` maps every index `y + j - 2` read by the
convolution (pixel `y < n`, kernel tap `j < 5`, i.e. offset in `[-2, 2]`)
into `[0, n)`, so every array access of the convolution is in bounds; and
the guarantee needs the dimension to be at least 2: for `n = 1` the tap
`j = 4` produces the out-of-range index `-1`. -/
theorem C10_reflect_in_bounds :
    (∀ (n y j : ℕ), 2 ≤ n → y < n → j < 5 →
      0 ≤ reflect n ((y : ℤ) + (j : ℤ) - 2) ∧
        reflect n ((y : ℤ) + (j : ℤ) - 2) < (n : ℤ)) ∧
    reflect 1 (((0 : ℕ) : ℤ) + ((4 : ℕ) : ℤ) - 2) < 0 := by
  constructor
  · intro n y j hn hy hj
    have hr : ∀ (k : ℕ) (i : ℤ), reflect k i =
        if (k : ℤ) ≤ (if i < 0 then -i else i) then
          2 * k - (if i < 0 then -i else i) - 1
        else (if i < 0 then -i else i) := fun k i => rfl
    rw [hr]
    split_ifs <;> omega
  · decide

theorem C10_reflect_in_bounds_witness :
    0 ≤ reflect 5 (((4 : ℕ) : ℤ) + ((4 : ℕ) : ℤ) - 2) ∧
      reflect 5 (((4 : ℕ) : ℤ) + ((4 : ℤ) : ℤ) - 2) < (5 : ℤ) :=
  C10_reflect_in_bounds.1 5 4 4 (by norm_num) (by norm_num) (by norm_num)

/-- C1: `Compare` on two images whose widths or heights differ fails with
`ErrSize` and produces no result image; on two equal-sized images it
returns a result and no error. -/
theorem C1_size_mismatch (d : perceptual) (a b : Image) :
    (a.w ≠ b.w ∨ a.h ≠ b.h → Compare d a b = Except.error DiffError.ErrSize) ∧
    (a.w = b.w → a.h = b.h →
      Compare d a b =
        Except.ok (⟨a.w, a.h, fun x y => diffAt d a b x y⟩, npix d a b)) := by
  constructor
  · intro hne
    unfold Compare
    rw [if_pos hne]
  · intro hw hh
    unfold Compare
    rw [if_neg (by push_neg; exact ⟨hw, hh⟩)]

/-- A concrete 2×2 image every pixel of which is the given color. -/
def img2x2 (c : RGBA16) : Image := ⟨2, 2, fun _ _ => c⟩

/-- A 2×2 fully opaque black image. -/
def blackImg : Image := img2x2 ⟨0, 0, 0, 0xffff⟩

/-- A 1×1 fully opaque black image. -/
def oneImg : Image := ⟨1, 1, fun _ _ => ⟨0, 0, 0, 0xffff⟩⟩

/-- A sample engine configuration with directly given derived fields. -/
noncomputable def dSample : perceptual :=
  { gamma := 1, lum := 100, nocolor := false, fov := 45, cf := 1, odp := 1, ai := 0 }

theorem C1_size_mismatch_witness :
    Compare dSample oneImg blackImg = Except.error DiffError.ErrSize ∧
    Compare dSample blackImg blackImg =
      Except.ok
        (⟨blackImg.w, blackImg.h, fun x y => diffAt dSample blackImg blackImg x y⟩,
          npix dSample blackImg blackImg) :=
  ⟨(C1_size_mismatch dSample oneImg blackImg).1 (Or.inl (by decide)),
    (C1_size_mismatch dSample blackImg blackImg).2 rfl rfl⟩

/-- C5: for every pixel processed by the aggregator, whatever the contrast
magnitudes, the clamped elevation factor lies in `[1, 10]`. -/
theorem C5_factor_clamp (d : perceptual) (a b : Image) (y x : ℕ) :
    1 ≤ factorAt d a b y x ∧ factorAt d a b y x ≤ 10 :=
  factorAt_bounds d a b y x

lemma aiLoop_spec (odp : ℝ) :
    ∀ fuel ai, fuel + ai = lapLevels - 1 → (∀ j, j < ai → ¬ odp < 2 ^ j) →
      aiLoop odp fuel ((2 : ℝ) ^ ai) ai < lapLevels ∧
      (aiLoop odp fuel ((2 : ℝ) ^ ai) ai < lapLevels - 1 →
        odp < 2 ^ aiLoop odp fuel ((2 : ℝ) ^ ai) ai) ∧
      (∀ j, j < aiLoop odp fuel ((2 : ℝ) ^ ai) ai → ¬ odp < 2 ^ j) := by
  have h8 : lapLevels = 8 := rfl
  intro fuel
  induction fuel with
  | zero =>
    intro ai hfa hbelow
    have hai : ai = lapLevels - 1 := by omega
    unfold aiLoop
    exact ⟨by omega, by omega, fun j hj => hbelow j hj⟩
  | succ k ih =>
    intro ai hfa hbelow
    unfold aiLoop
    split_ifs with h1 h2
    · refine ⟨by omega, fun _ => h1, hbelow⟩
    · refine ⟨by omega, fun hcon => absurd (h2 ▸ hcon) (lt_irrefl _), fun j hj => ?_⟩
      rcases Nat.lt_succ_iff_lt_or_eq.mp hj with hj' | hj'
      · exact hbelow j hj'
      · rw [hj']; exact not_lt.mpr (not_lt.mp h1)
    · have hpow : (2 : ℝ) ^ ai * 2 = 2 ^ (ai + 1) := (pow_succ 2 ai).symm
      rw [hpow]
      refine ih (ai + 1) (by omega) (fun j hj => ?_)
      rcases Nat.lt_succ_iff_lt_or_eq.mp hj with hj' | hj'
      · exact hbelow j hj'
      · rw [hj']; exact not_lt.mpr (not_lt.mp h1)

lemma aiOf_spec (odp : ℝ) :
    aiOf odp < lapLevels ∧
    (aiOf odp < lapLevels - 1 → odp < 2 ^ aiOf odp) ∧
    (∀ j, j < aiOf odp → ¬ odp < 2 ^ j) := by
  have h := aiLoop_spec odp (lapLevels - 1) 0 (by omega) (by omega)
  rw [pow_zero] at h
  exact h

/-- C6: for every positive field of view, `NewPerceptual` computes
`odp = 2·tan(fov/2 in radians)·(180/π)` and sets `ai` to the smallest `k`
with `2^k > odp`, capped at `lapLevels - 1`; hence `ai < lapLevels`. -/
theorem C6_adaptation_index (gamma lum fov cf : ℝ) (nocolor : Bool) (hf : 0 < fov) :
    (NewPerceptual gamma lum fov cf nocolor).odp =
      2 * Real.tan (fov / 2 * (Real.pi / 180)) * (180 / Real.pi) ∧
    (NewPerceptual gamma lum fov cf nocolor).ai < lapLevels ∧
    ((NewPerceptual gamma lum fov cf nocolor).ai < lapLevels - 1 →
      (NewPerceptual gamma lum fov cf nocolor).odp <
        2 ^ (NewPerceptual gamma lum fov cf nocolor).ai) ∧
    (∀ j, j < (NewPerceptual gamma lum fov cf nocolor).ai →
      ¬ (NewPerceptual gamma lum fov cf nocolor).odp < 2 ^ j) := by
  have hodp : (NewPerceptual gamma lum fov cf nocolor).odp = odpOf fov := rfl
  have hai : (NewPerceptual gamma lum fov cf nocolor).ai = aiOf (odpOf fov) := rfl
  have h := aiOf_spec (odpOf fov)
  refine ⟨?_, ?_, ?_, ?_⟩
  · rw [hodp]
    unfold odpOf
    rw [show fov * 0.5 * Real.pi / 180 = fov / 2 * (Real.pi / 180) by ring]
    ring
  · rw [hai]; exact h.1
  · rw [hai, hodp]; exact h.2.1
  · rw [hai, hodp]; exact h.2.2

theorem C6_adaptation_index_witness :
    (NewPerceptual 2.2 100 45 1 false).ai < lapLevels :=
  (C6_adaptation_index 2.2 100 45 1 false (by norm_num)).2.1

lemma pixelPass_def (d : perceptual) (a b : Image) (y x : ℕ) :
    pixelPass d a b y x =
      if deltaAt d a b y x > factorAt d a b y x * tvi (adaptAt d a b y x) then false
      else if d.nocolor then true
      else
        if (((labAt d a y x).a - (labAt d b y x).a) * ((labAt d a y x).a - (labAt d b y x).a) +
              ((labAt d a y x).b - (labAt d b y x).b) * ((labAt d a y x).b - (labAt d b y x).b)) *
            (if adaptAt d a b y x < 10 then 0 else d.cf) > factorAt d a b y x then false
        else true := rfl

lemma pixelPass_self (d : perceptual) (a : Image) (y x : ℕ) :
    pixelPass d a a y x = true := by
  rw [pixelPass_def]
  have hδ : deltaAt d a a y x = 0 := by unfold deltaAt; rw [sub_self, abs_zero]
  have hf1 : (1 : ℝ) ≤ factorAt d a a y x := (factorAt_bounds d a a y x).1
  have hpos : 0 < factorAt d a a y x * tvi (adaptAt d a a y x) :=
    mul_pos (by linarith) (tvi_pos _)
  rw [hδ, if_neg (not_lt.mpr hpos.le)]
  simp only [sub_self]
  have hz : ((0 : ℝ) * 0 + 0 * 0) * (if adaptAt d a a y x < 10 then 0 else d.cf) = 0 := by
    ring
  rw [hz, if_neg (not_lt.mpr (by linarith : (0 : ℝ) ≤ factorAt d a a y x))]
  split_ifs <;> rfl

/-- C2: for every image `A` and every engine configuration, `Compare (A, A)`
returns `diffCount = 0` and an output image in which every in-bounds pixel
carries the pass color (opaque black). -/
theorem C2_identity (d : perceptual) (a : Image) :
    Compare d a a = Except.ok (⟨a.w, a.h, fun x y => diffAt d a a x y⟩, 0) ∧
    ∀ x y, x < a.w → y < a.h → diffAt d a a x y = ⟨0, 0, 0, 0xff⟩ := by
  constructor
  · have h0 : npix d a a = 0 := by
      unfold npix
      refine Finset.sum_eq_zero fun y _ => Finset.sum_eq_zero fun x _ => ?_
      rw [pixelPass_self, if_pos rfl]
    unfold Compare
    rw [if_neg (by simp), h0]
  · intro x y hx hy
    unfold diffAt
    rw [if_pos ⟨hx, hy⟩, pixelPass_self, if_pos rfl]

theorem C2_identity_witness :
    Compare dSample blackImg blackImg =
      Except.ok
        (⟨blackImg.w, blackImg.h, fun x y => diffAt dSample blackImg blackImg x y⟩, 0) ∧
    diffAt dSample blackImg blackImg 0 0 = ⟨0, 0, 0, 0xff⟩ :=
  ⟨(C2_identity dSample blackImg).1,
    (C2_identity dSample blackImg).2 0 0 (by norm_num [blackImg, img2x2])
      (by norm_num [blackImg, img2x2])⟩

lemma adaptAt_symm (d : perceptual) (a b : Image) (y x : ℕ) :
    adaptAt d a b y x = adaptAt d b a y x := by
  unfold adaptAt
  rw [add_comm]

lemma denomAt_symm (d : perceptual) (a b : Image) (y x i : ℕ) :
    denomAt d a b y x i = denomAt d b a y x i := by
  unfold denomAt
  rw [max_comm |g3 (pyrOf d a) (i + 2) y x|]

lemma contrastAt_symm (d : perceptual) (a b : Image) (y x i : ℕ) :
    contrastAt d a b y x i = contrastAt d b a y x i := by
  unfold contrastAt
  rw [max_comm |g3 (pyrOf d a) i y x - g3 (pyrOf d a) (i + 1) y x|, denomAt_symm]

lemma cSumRaw_symm (d : perceptual) (a b : Image) (y x : ℕ) :
    cSumRaw d a b y x = cSumRaw d b a y x := by
  unfold cSumRaw
  exact Finset.sum_congr rfl fun i _ => contrastAt_symm d a b y x i

lemma cSum_symm (d : perceptual) (a b : Image) (y x : ℕ) :
    cSum d a b y x = cSum d b a y x := by
  unfold cSum
  rw [cSumRaw_symm]

lemma maskAt_symm (d : perceptual) (a b : Image) (hw : a.w = b.w) (y x i : ℕ) :
    maskAt d a b y x i = maskAt d b a y x i := by
  unfold maskAt
  rw [contrastAt_symm, adaptAt_symm, hw]

lemma factorRaw_symm (d : perceptual) (a b : Image) (hw : a.w = b.w) (y x : ℕ) :
    factorRaw d a b y x = factorRaw d b a y x := by
  unfold factorRaw
  refine Finset.sum_congr rfl fun i _ => ?_
  rw [contrastAt_symm, maskAt_symm d a b hw, cSum_symm, hw]

lemma factorAt_symm (d : perceptual) (a b : Image) (hw : a.w = b.w) (y x : ℕ) :
    factorAt d a b y x = factorAt d b a y x := by
  unfold factorAt
  rw [factorRaw_symm d a b hw]

lemma deltaAt_symm (d : perceptual) (a b : Image) (y x : ℕ) :
    deltaAt d a b y x = deltaAt d b a y x := by
  unfold deltaAt
  rw [abs_sub_comm]

lemma pixelPass_symm (d : perceptual) (a b : Image) (hw : a.w = b.w) (y x : ℕ) :
    pixelPass d a b y x = pixelPass d b a y x := by
  rw [pixelPass_def, pixelPass_def, deltaAt_symm, factorAt_symm d a b hw, adaptAt_symm,
    show ((labAt d a y x).a - (labAt d b y x).a) * ((labAt d a y x).a - (labAt d b y x).a) +
        ((labAt d a y x).b - (labAt d b y x).b) * ((labAt d a y x).b - (labAt d b y x).b) =
      ((labAt d b y x).a - (labAt d a y x).a) * ((labAt d b y x).a - (labAt d a y x).a) +
        ((labAt d b y x).b - (labAt d a y x).b) * ((labAt d b y x).b - (labAt d a y x).b)
      from by ring]

lemma npix_symm (d : perceptual) (a b : Image) (hw : a.w = b.w) (hh : a.h = b.h) :
    npix d a b = npix d b a := by
  unfold npix
  rw [hw, hh]
  exact Finset.sum_congr rfl fun y _ =>
    Finset.sum_congr rfl fun x _ => by rw [pixelPass_symm d a b hw]

/-- C4: for every pair of equal-sized images and every engine configuration,
`Compare` returns the same `diffCount` for `(A, B)` as for `(B, A)`. -/
theorem C4_symmetry (d : perceptual) (a b : Image) (hw : a.w = b.w) (hh : a.h = b.h) :
    ∃ i1 i2 n, Compare d a b = Except.ok (i1, n) ∧ Compare d b a = Except.ok (i2, n) := by
  refine ⟨⟨a.w, a.h, fun x y => diffAt d a b x y⟩,
    ⟨b.w, b.h, fun x y => diffAt d b a x y⟩, npix d a b, ?_, ?_⟩
  · unfold Compare
    rw [if_neg (by push_neg; exact ⟨hw, hh⟩)]
  · unfold Compare
    rw [if_neg (by push_neg; exact ⟨hw.symm, hh.symm⟩), ← npix_symm d a b hw hh]

/-- A 2×2 fully opaque white image. -/
def whiteImg : Image := img2x2 ⟨0xffff, 0xffff, 0xffff, 0xffff⟩

theorem C4_symmetry_witness :
    ∃ i1 i2 n, Compare dSample blackImg whiteImg = Except.ok (i1, n) ∧
      Compare dSample whiteImg blackImg = Except.ok (i2, n) :=
  C4_symmetry dSample blackImg whiteImg rfl rfl

lemma pixelPass_nocolor (d : perceptual) (nc : Bool) (a b : Image) (y x : ℕ) :
    pixelPass {d with nocolor := nc} a b y x =
      if deltaAt d a b y x > factorAt d a b y x * tvi (adaptAt d a b y x) then false
      else if nc then true
      else
        if (((labAt d a y x).a - (labAt d b y x).a) * ((labAt d a y x).a - (labAt d b y x).a) +
              ((labAt d a y x).b - (labAt d b y x).b) * ((labAt d a y x).b - (labAt d b y x).b)) *
            (if adaptAt d a b y x < 10 then 0 else d.cf) > factorAt d a b y x then false
        else true := rfl

lemma pixelPass_nocolor_mono (d : perceptual) (a b : Image) (y x : ℕ) :
    pixelPass {d with nocolor := false} a b y x = true →
      pixelPass {d with nocolor := true} a b y x = true := by
  rw [pixelPass_nocolor, pixelPass_nocolor]
  by_cases h1 : deltaAt d a b y x > factorAt d a b y x * tvi (adaptAt d a b y x)
  · rw [if_pos h1, if_pos h1]
    exact id
  · rw [if_neg h1, if_neg h1]
    intro _
    rw [if_pos rfl]

lemma npix_nocolor_mono (d : perceptual) (a b : Image) :
    npix {d with nocolor := true} a b ≤ npix {d with nocolor := false} a b := by
  unfold npix
  refine Finset.sum_le_sum fun y _ => Finset.sum_le_sum fun x _ => ?_
  by_cases hp : pixelPass {d with nocolor := false} a b y x = true
  · rw [if_pos hp, if_pos (pixelPass_nocolor_mono d a b y x hp)]
  · rw [if_neg hp]
    split_ifs <;> norm_num

/-- C8: for a fixed engine configuration and image pair, the `diffCount`
with the chrominance test enabled (`nocolor = false`) is at least the
`diffCount` with it disabled (`nocolor = true`). -/
theorem C8_color_monotonicity (d : perceptual) (a b : Image)
    (hw : a.w = b.w) (hh : a.h = b.h) :
    ∃ i1 n1 i2 n2,
      Compare {d with nocolor := false} a b = Except.ok (i1, n1) ∧
      Compare {d with nocolor := true} a b = Except.ok (i2, n2) ∧ n2 ≤ n1 := by
  refine ⟨⟨a.w, a.h, fun x y => diffAt {d with nocolor := false} a b x y⟩,
    npix {d with nocolor := false} a b,
    ⟨a.w, a.h, fun x y => diffAt {d with nocolor := true} a b x y⟩,
    npix {d with nocolor := true} a b, ?_, ?_, npix_nocolor_mono d a b⟩
  · unfold Compare
    rw [if_neg (by push_neg; exact ⟨hw, hh⟩)]
  · unfold Compare
    rw [if_neg (by push_neg; exact ⟨hw, hh⟩)]

theorem C8_color_monotonicity_witness :
    ∃ i1 n1 i2 n2,
      Compare {dSample with nocolor := false} blackImg whiteImg = Except.ok (i1, n1) ∧
      Compare {dSample with nocolor := true} blackImg whiteImg = Except.ok (i2, n2) ∧
      n2 ≤ n1 :=
  C8_color_monotonicity dSample blackImg whiteImg rfl rfl

lemma pixelPass_cf (d : perceptual) (c : ℝ) (a b : Image) (y x : ℕ) :
    pixelPass {d with cf := c} a b y x =
      if deltaAt d a b y x > factorAt d a b y x * tvi (adaptAt d a b y x) then false
      else if d.nocolor then true
      else
        if (((labAt d a y x).a - (labAt d b y x).a) * ((labAt d a y x).a - (labAt d b y x).a) +
              ((labAt d a y x).b - (labAt d b y x).b) * ((labAt d a y x).b - (labAt d b y x).b)) *
            (if adaptAt d a b y x < 10 then 0 else c) > factorAt d a b y x then false
        else true := rfl

lemma pixelPass_cf_scotopic (d : perceptual) (c1 c2 : ℝ) (a b : Image) (y x : ℕ)
    (h10 : adaptAt d a b y x < 10) :
    pixelPass {d with cf := c1} a b y x = pixelPass {d with cf := c2} a b y x := by
  have e : ∀ c : ℝ, (if adaptAt d a b y x < 10 then (0 : ℝ) else c) = 0 := fun c => if_pos h10
  rw [pixelPass_cf, pixelPass_cf, e c1, e c2]

/-- C7: when the shared adaptation luminance is below 10 at every in-bounds
pixel, `Compare` returns the same output image and `diffCount` for any two
values of the color factor. -/
theorem C7_scotopic_cutoff (d : perceptual) (c1 c2 : ℝ) (a b : Image)
    (hadapt : ∀ y x, y < a.h → x < a.w → adaptAt d a b y x < 10) :
    Compare {d with cf := c1} a b = Compare {d with cf := c2} a b := by
  have hpix : ∀ y x, y < a.h → x < a.w →
      pixelPass {d with cf := c1} a b y x = pixelPass {d with cf := c2} a b y x :=
    fun y x hy hx => pixelPass_cf_scotopic d c1 c2 a b y x (hadapt y x hy hx)
  unfold Compare
  by_cases hsz : a.w ≠ b.w ∨ a.h ≠ b.h
  · rw [if_pos hsz, if_pos hsz]
  · rw [if_neg hsz, if_neg hsz]
    have hnp : npix {d with cf := c1} a b = npix {d with cf := c2} a b := by
      unfold npix
      refine Finset.sum_congr rfl fun y hy => Finset.sum_congr rfl fun x hx => ?_
      rw [hpix y x (Finset.mem_range.mp hy) (Finset.mem_range.mp hx)]
    have hdiff : (fun x y => diffAt {d with cf := c1} a b x y) =
        fun x y => diffAt {d with cf := c2} a b x y := by
      funext x y
      unfold diffAt
      by_cases hb : x < a.w ∧ y < a.h
      · rw [if_pos hb, if_pos hb, hpix y x hb.2 hb.1]
      · rw [if_neg hb, if_neg hb]
    rw [hnp, hdiff]

lemma xyz_black_y : (xyz ⟨0, 0, 0, 0xffff⟩ 1).2.1 = 0 := by
  unfold xyz
  norm_num [Real.rpow_one]

lemma g2_map_range_zero (h w : ℕ) (f : ℕ → ℕ → ℝ) (hz : ∀ y x, f y x = 0) :
    ∀ y x, g2 ((List.range h).map fun y => (List.range w).map fun x => f y x) y x = 0 := by
  intro y x
  unfold g2
  rw [getD_map_range]
  by_cases hy : y < h
  · rw [if_pos hy, getD_map_range]
    by_cases hx : x < w
    · rw [if_pos hx]
      exact hz y x
    · rw [if_neg hx]
  · rw [if_neg hy]
    rfl

lemma g2_convolve_zero (h w : ℕ) (cur : List (List ℝ)) (hz : ∀ y x, g2 cur y x = 0) :
    ∀ y x, g2 (convolve h w cur) y x = 0 := by
  have : ∀ (y x : ℕ), (∑ i ∈ Finset.range 5, ∑ j ∈ Finset.range 5,
      lapKernel i * lapKernel j *
        g2i cur (reflect h ((y : ℤ) + (j : ℤ) - 2)) (reflect w ((x : ℤ) + (i : ℤ) - 2))) =
      (0 : ℝ) := by
    intro y x
    refine Finset.sum_eq_zero fun i _ => Finset.sum_eq_zero fun j _ => ?_
    have hg : g2i cur (reflect h ((y : ℤ) + (j : ℤ) - 2)) (reflect w ((x : ℤ) + (i : ℤ) - 2)) = 0 := by
      unfold g2i
      split_ifs with hc
      · exact hz _ _
      · rfl
    rw [hg, mul_zero]
  intro y x
  unfold convolve
  exact g2_map_range_zero h w _ this y x

lemma pyrAux_zero (h w : ℕ) :
    ∀ (n : ℕ) (cur : List (List ℝ)), (∀ y x, g2 cur y x = 0) →
      ∀ l y x, g2 ((pyrAux h w n cur).getD l []) y x = 0 := by
  intro n
  induction n with
  | zero => intro cur _ l y x; rfl
  | succ k ih =>
    intro cur hz l y x
    cases l with
    | zero => exact hz y x
    | succ l' => exact ih (convolve h w cur) (g2_convolve_zero h w cur hz) l' y x

lemma pyr_black_zero : ∀ l y x, g3 (pyrOf dSample blackImg) l y x = 0 := by
  intro l y x
  have hm : ∀ y x, g2 (lumMap blackImg 1 100) y x = 0 := by
    unfold lumMap
    exact g2_map_range_zero blackImg.h blackImg.w _
      (fun y x => by rw [show blackImg.At x y = ⟨0, 0, 0, 0xffff⟩ from rfl, xyz_black_y, zero_mul])
  have hp : pyrOf dSample blackImg = pyramid (lumMap blackImg 1 100) := rfl
  have hcopy : ∀ y x,
      g2 ((List.range (lumMap blackImg 1 100).length).map fun y =>
        (List.range ((lumMap blackImg 1 100).headD []).length).map fun x =>
          g2 (lumMap blackImg 1 100) y x) y x = 0 :=
    g2_map_range_zero _ _ _ hm
  rw [show g3 (pyrOf dSample blackImg) l y x =
    g2 ((pyrAux (lumMap blackImg 1 100).length ((lumMap blackImg 1 100).headD []).length
      lapLevels ((List.range (lumMap blackImg 1 100).length).map fun y =>
        (List.range ((lumMap blackImg 1 100).headD []).length).map fun x =>
          g2 (lumMap blackImg 1 100) y x)).getD l []) y x from rfl]
  exact pyrAux_zero _ _ lapLevels _ hcopy l y x

lemma adaptAt_black (y x : ℕ) : adaptAt dSample blackImg blackImg y x = 1e-5 := by
  unfold adaptAt
  rw [pyr_black_zero]
  rw [show (0.5 : ℝ) * (0 + 0) = 0 by norm_num,
    max_eq_right (by norm_num : (0 : ℝ) ≤ 1e-5)]

theorem C7_scotopic_cutoff_witness :
    Compare {dSample with cf := 1} blackImg blackImg =
      Compare {dSample with cf := 2} blackImg blackImg :=
  C7_scotopic_cutoff dSample 1 2 blackImg blackImg
    (fun y x _ _ => by rw [adaptAt_black]; norm_num)

lemma odpOf_pos (fov : ℝ) (h1 : 0 < fov) (h2 : fov < 180) : 0 < odpOf fov := by
  unfold odpOf
  have hpi := Real.pi_pos
  have harg1 : 0 < fov * 0.5 * Real.pi / 180 := by positivity
  have harg2 : fov * 0.5 * Real.pi / 180 < Real.pi / 2 := by
    rw [div_lt_div_iff₀ (by norm_num : (0 : ℝ) < 180) (by norm_num : (0 : ℝ) < 2)]
    nlinarith
  have htan : 0 < Real.tan (fov * 0.5 * Real.pi / 180) :=
    Real.tan_pos_of_pos_of_lt_pi_div_two harg1 harg2
  have hnum : 0 < 2 * Real.tan (fov * 0.5 * Real.pi / 180) * 180 := by nlinarith
  exact div_pos hnum hpi

lemma cpd_pos (w : ℕ) (odp : ℝ) (hodp : 0 < odp) (hw : 1 ≤ w) : ∀ i, 0 < cpd w odp i := by
  intro i
  induction i with
  | zero =>
    unfold cpd
    have hw1 : (1 : ℝ) ≤ (w : ℝ) := by exact_mod_cast hw
    exact div_pos (by linarith) hodp
  | succ k ih =>
    unfold cpd
    linarith

lemma csf_pos (f l : ℝ) (hf : 0 < f) (hl : 0 < l) : 0 < csf f l := by
  show 0 < 440.0 * Real.rpow (1.0 + 0.7 / l) (-0.2) * f *
      Real.exp (-(0.3 * Real.rpow (1.0 + 100.0 / l) 0.15) * f) *
      Real.sqrt (1.0 + 0.06 * Real.exp (0.3 * Real.rpow (1.0 + 100.0 / l) 0.15 * f))
  have hb1 : (0 : ℝ) < 1.0 + 0.7 / l := by positivity
  have h1 : (0 : ℝ) < 440.0 * Real.rpow (1.0 + 0.7 / l) (-0.2) :=
    mul_pos (by norm_num) (Real.rpow_pos_of_pos hb1 _)
  have h2 : (0 : ℝ) < Real.exp (-(0.3 * Real.rpow (1.0 + 100.0 / l) 0.15) * f) :=
    Real.exp_pos _
  have h3 : (0 : ℝ) <
      Real.sqrt (1.0 + 0.06 * Real.exp (0.3 * Real.rpow (1.0 + 100.0 / l) 0.15 * f)) := by
    refine Real.sqrt_pos.mpr ?_
    have := Real.exp_pos (0.3 * Real.rpow (1.0 + 100.0 / l) 0.15 * f)
    linarith
  exact mul_pos (mul_pos (mul_pos h1 hf) h2) h3

lemma denomAt_ge (d : perceptual) (a b : Image) (y x i : ℕ) :
    1e-5 ≤ denomAt d a b y x i := le_max_right _ _

lemma contrastAt_nonneg (d : perceptual) (a b : Image) (y x i : ℕ) :
    0 ≤ contrastAt d a b y x i := by
  unfold contrastAt
  refine div_nonneg (le_max_of_le_left (abs_nonneg _)) ?_
  exact le_trans (by norm_num) (denomAt_ge d a b y x i)

lemma cSum_ge (d : perceptual) (a b : Image) (y x : ℕ) : 1e-5 ≤ cSum d a b y x := by
  unfold cSum
  split_ifs with h
  · exact le_refl _
  · exact not_lt.mp h

lemma epsilon_pos : 0 < epsilon := by unfold epsilon; norm_num

lemma whites_pos : 0 < whiteX ∧ 0 < whiteY ∧ 0 < whiteZ := by
  unfold whiteX whiteY whiteZ whites xyz
  norm_num [Real.one_rpow]

/-- C9: for inputs past the size check (any images, width at least 1) and a
constructor-built engine with a field of view strictly between 0 and 180
degrees, every quantity the perceptual comparison divides by or feeds to a
logarithm or real power is in its domain: the adaptation luminance, the
contrast denominator and the contrast sum are clamped to at least `1e-5`,
the `freq` denominators `csf(cpd[i], 100)` are strictly positive, the
`vmask` power base is nonnegative, the `csf` power bases are strictly
positive at every reachable luminance, the reference white is strictly
positive, the `lab` cube-root branch and the `tvi` power bases are strictly
positive on their reachable inputs, and the `xyz` power bases are
nonnegative. -/
theorem C9_arith_totality (gamma lum fov cf : ℝ) (nocolor : Bool) (a b : Image)
    (hfov1 : 0 < fov) (hfov2 : fov < 180) (hw : 1 ≤ a.w) :
    (∀ y x, 1e-5 ≤ adaptAt (NewPerceptual gamma lum fov cf nocolor) a b y x) ∧
    (∀ y x i, 1e-5 ≤ denomAt (NewPerceptual gamma lum fov cf nocolor) a b y x i) ∧
    (∀ y x, 1e-5 ≤ cSum (NewPerceptual gamma lum fov cf nocolor) a b y x) ∧
    (∀ i, 0 < csf (cpd a.w (NewPerceptual gamma lum fov cf nocolor).odp i) 100.0) ∧
    (∀ y x i, 0 ≤ 392.498 *
      (contrastAt (NewPerceptual gamma lum fov cf nocolor) a b y x i *
        csf (cpd a.w (NewPerceptual gamma lum fov cf nocolor).odp i)
          (adaptAt (NewPerceptual gamma lum fov cf nocolor) a b y x))) ∧
    (∀ y x, 0 < 1.0 + 0.7 / adaptAt (NewPerceptual gamma lum fov cf nocolor) a b y x ∧
      0 < 1.0 + 100.0 / adaptAt (NewPerceptual gamma lum fov cf nocolor) a b y x) ∧
    (0 < whiteX ∧ 0 < whiteY ∧ 0 < whiteZ) ∧
    (∀ v : ℝ, v > epsilon → 0 < v) ∧
    (∀ y x, 0 < adaptAt (NewPerceptual gamma lum fov cf nocolor) a b y x) ∧
    (∀ al : ℝ, -3.94 ≤ Real.logb 10 al → Real.logb 10 al < -1.44 →
      0 < 0.405 * Real.logb 10 al + 1.6) ∧
    (∀ al : ℝ, -0.0184 ≤ Real.logb 10 al → Real.logb 10 al < 1.9 →
      0 < 0.249 * Real.logb 10 al + 0.65) ∧
    (∀ (m : Image) (x y : ℕ), 0 ≤ ((m.At x y).r : ℝ) / 0xffff ∧
      0 ≤ ((m.At x y).g : ℝ) / 0xffff ∧ 0 ≤ ((m.At x y).b : ℝ) / 0xffff) := by
  have hodp : 0 < (NewPerceptual gamma lum fov cf nocolor).odp := by
    show 0 < odpOf fov
    exact odpOf_pos fov hfov1 hfov2
  refine ⟨fun y x => adaptAt_ge _ a b y x, fun y x i => denomAt_ge _ a b y x i,
    fun y x => cSum_ge _ a b y x, ?_, ?_, ?_, whites_pos,
    fun v hv => lt_trans epsilon_pos hv, fun y x => adaptAt_pos _ a b y x,
    fun al h1 h2 => by linarith, fun al h1 h2 => by linarith,
    fun m x y => ⟨by positivity, by positivity, by positivity⟩⟩
  · intro i
    exact csf_pos _ _ (cpd_pos a.w _ hodp hw i) (by norm_num)
  · intro y x i
    refine mul_nonneg (by norm_num) (mul_nonneg (contrastAt_nonneg _ a b y x i) ?_)
    exact le_of_lt (csf_pos _ _ (cpd_pos a.w _ hodp hw i) (adaptAt_pos _ a b y x))
  · intro y x
    have hA := adaptAt_pos (NewPerceptual gamma lum fov cf nocolor) a b y x
    constructor <;> positivity

theorem C9_arith_totality_witness :
    1e-5 ≤ adaptAt (NewPerceptual 2.2 100 45 1 false) blackImg blackImg 0 0 :=
  (C9_arith_totality 2.2 100 45 1 false blackImg blackImg (by norm_num) (by norm_num)
    (by norm_num [blackImg, img2x2])).1 0 0
